import Mathlib

/-!
Verification of the curve-ordered cluster-threshold halftoning engine
(`space_filling_curves.py`, `digital_halftoning.py`).

The source is embedded shallowly: machine integers are `Nat`/`Int`
(Python integers are unbounded, and all quantities here stay non-negative
except the cluster size, which the CLI may pass negative, hence `Int`);
numpy arrays become lists of lists of `Nat`; exceptions become `Except`.
-/

/-! ## Curve generators (`space_filling_curves.py`) -/

/-- The four anchor positions for the lowest two bits of the Hilbert index
(source list `first_order_coordinates`, indexed by `i & 3`). -/
def hilbertAnchor : Nat → Nat × Nat
  | 0 => (0, 0)
  | 1 => (0, 1)
  | 2 => (1, 1)
  | _ => (1, 0)

/-- One level of the iterative Hilbert construction: the body of the
`for j in range(1, order)` loop of `hilbert`, acting on the current point
for quadrant `q` with the given `shift = 2**j`.  The final branch (quadrant
outside `0..3`) leaves the point unchanged, as the source `if/elif` chain
does; it is unreachable because the quadrant is always taken mod 4.
Python subtraction never goes negative here because the incoming point is
bounded by `shift` in both coordinates, so `Nat` subtraction is exact. -/
def hilbertStep (shift q : Nat) (p : Nat × Nat) : Nat × Nat :=
  if q = 0 then (p.2, p.1)
  else if q = 1 then (p.1, p.2 + shift)
  else if q = 2 then (p.1 + shift, p.2 + shift)
  else if q = 3 then (2 * shift - 1 - p.2, shift - 1 - p.1)
  else p

/-- `hilbert(i, order)` from the source: the anchor of the low two bits,
then one transform per later base-4 digit of `i` (the source shifts `i`
right two bits per iteration, so iteration `j` sees digit `i / 4^j % 4`,
with `shift = 2^j`). -/
def hilbert (i order : Nat) : Nat × Nat :=
  (List.range' 1 (order - 1)).foldl
    (fun p j => hilbertStep (2 ^ j) (i / 4 ^ j % 4) p)
    (hilbertAnchor (i % 4))

/-- `peano(i, order)` from the source: the body is a TODO stub that
always returns the origin. -/
def peano (i order : Nat) : Nat × Nat := (0, 0)

/-- `sierpinski(i, order)` from the source: the body is a TODO stub that
always returns the origin. -/
def sierpinski (i order : Nat) : Nat × Nat := (0, 0)

/-- The three curve families dispatched on by the source; the string
dispatch of `space_filling_curve` becomes an enumerated type, so the
`ValueError` branch for an unrecognized name has no counterpart. -/
inductive CurveType
  | hilbert
  | peano
  | sierpinski
deriving DecidableEq, Repr

/-- Grid side `base` per family: 2 for Hilbert, 3 for Peano, 4 for
Sierpinski (the `n = 2**order` / `3**order` / `4**order` lines). -/
def CurveType.base : CurveType → Nat
  | .hilbert => 2
  | .peano => 3
  | .sierpinski => 4

/-- `space_filling_curve(curve_type, order)`: the list of the first
`n * n` curve points, `n = base^order`. -/
def space_filling_curve (ct : CurveType) (order : Nat) : List (Nat × Nat) :=
  match ct with
  | .hilbert => (List.range (2 ^ order * 2 ^ order)).map (fun i => hilbert i order)
  | .peano => (List.range (3 ^ order * 3 ^ order)).map (fun i => peano i order)
  | .sierpinski => (List.range (4 ^ order * 4 ^ order)).map (fun i => sierpinski i order)

/-! ## Basic facts about `hilbert` -/

/-- Unfolding: for `order ≥ 1`, the top digit's transform comes last. -/
theorem hilbert_succ (i o : Nat) (ho : 1 ≤ o) :
    hilbert i (o + 1) = hilbertStep (2 ^ o) (i / 4 ^ o % 4) (hilbert i o) := by
  unfold hilbert
  have h1 : o + 1 - 1 = (o - 1) + 1 := by omega
  rw [h1, List.range'_concat, List.foldl_append]
  simp only [List.foldl_cons, List.foldl_nil]
  have h2 : 1 + 1 * (o - 1) = o := by omega
  rw [h2]

theorem hilbert_one (i : Nat) : hilbert i 1 = hilbertAnchor (i % 4) := rfl

/-- The anchors lie in the unit `2 × 2` grid. -/
theorem hilbertAnchor_lt (q : Nat) :
    (hilbertAnchor q).1 < 2 ∧ (hilbertAnchor q).2 < 2 := by
  unfold hilbertAnchor
  split <;> decide

/-- A step sends a point of the `s × s` grid into the `2s × 2s` grid. -/
theorem hilbertStep_lt (s q : Nat) (p : Nat × Nat) (hs : 1 ≤ s)
    (h1 : p.1 < s) (h2 : p.2 < s) :
    (hilbertStep s q p).1 < 2 * s ∧ (hilbertStep s q p).2 < 2 * s := by
  unfold hilbertStep
  split_ifs <;> (try simp) <;> omega

/-- Every Hilbert point of order `o ≥ 1` lies in the `2^o × 2^o` grid. -/
theorem hilbert_lt (i o : Nat) (ho : 1 ≤ o) :
    (hilbert i o).1 < 2 ^ o ∧ (hilbert i o).2 < 2 ^ o := by
  induction o, ho using Nat.le_induction with
  | base =>
      rw [hilbert_one]
      exact hilbertAnchor_lt (i % 4)
  | succ o ho ih =>
      rw [hilbert_succ i o ho]
      have hs : 1 ≤ 2 ^ o := Nat.one_le_two_pow
      have h := hilbertStep_lt (2 ^ o) (i / 4 ^ o % 4) (hilbert i o) hs ih.1 ih.2
      have hp : 2 ^ (o + 1) = 2 * 2 ^ o := by
        rw [Nat.pow_succ]; ring
      rw [hp]
      exact h

/-- `hilbert` only reads the low `2·o` bits of its index. -/
theorem hilbert_mod (o : Nat) (ho : 1 ≤ o) :
    ∀ i, hilbert (i % 4 ^ o) o = hilbert i o := by
  induction o, ho using Nat.le_induction with
  | base =>
      intro i
      rw [hilbert_one, hilbert_one, Nat.pow_one]
      congr 1
      omega
  | succ o ho ih =>
      intro i
      rw [hilbert_succ _ o ho, hilbert_succ i o ho]
      have hdvd : (4 : Nat) ^ o ∣ 4 ^ (o + 1) := pow_dvd_pow 4 (by omega)
      have hmm : i % 4 ^ (o + 1) % 4 ^ o = i % 4 ^ o := Nat.mod_mod_of_dvd i hdvd
      have hdig : i % 4 ^ (o + 1) / 4 ^ o % 4 = i / 4 ^ o % 4 := by
        have h1 : (4 : Nat) ^ (o + 1) = 4 ^ o * 4 := by rw [Nat.pow_succ]
        rw [h1, Nat.mod_mul_right_div_self]
        have h2 : ∀ k : Nat, k % 4 % 4 = k % 4 := by intro k; omega
        exact h2 (i / 4 ^ o)
      have hin : hilbert (i % 4 ^ (o + 1)) o = hilbert i o := by
        have h3 := ih (i % 4 ^ (o + 1))
        rw [hmm] at h3
        rw [← h3, ih i]
      rw [hdig, hin]

/-! ## The Hilbert curve is a bijection (claim C2) -/

theorem index_lt (o q r : Nat) (hq : q < 4) (hr : r < 4 ^ o) :
    4 ^ o * q + r < 4 ^ (o + 1) := by
  have h : (4 : Nat) ^ (o + 1) = 4 ^ o * 4 := pow_succ 4 o
  rw [h]
  calc 4 ^ o * q + r < 4 ^ o * q + 4 ^ o := by omega
    _ = 4 ^ o * (q + 1) := by ring
    _ ≤ 4 ^ o * 4 := Nat.mul_le_mul_left _ (by omega)

theorem index_div (o q r : Nat) (hq : q < 4) (hr : r < 4 ^ o) :
    (4 ^ o * q + r) / 4 ^ o % 4 = q := by
  have hpos : 0 < (4 : Nat) ^ o := pow_pos (by norm_num) o
  rw [Nat.mul_add_div hpos, Nat.div_eq_of_lt hr]
  omega

theorem index_mod (o q r : Nat) (hr : r < 4 ^ o) :
    (4 ^ o * q + r) % 4 ^ o = r := by
  rw [Nat.mul_add_mod]
  exact Nat.mod_eq_of_lt hr

/-- Each lattice cell of the `2^o × 2^o` grid is visited by exactly one
index in `[0, 4^o)`. -/
theorem hilbert_existsUnique (o : Nat) (ho : 1 ≤ o) :
    ∀ x y, x < 2 ^ o → y < 2 ^ o → ∃! i, i < 4 ^ o ∧ hilbert i o = (x, y) := by
  induction o, ho using Nat.le_induction with
  | base =>
      intro x y hx hy
      have hx2 : x < 2 := by simpa using hx
      have hy2 : y < 2 := by simpa using hy
      interval_cases x <;> interval_cases y
      · refine ⟨0, ⟨by norm_num, by decide⟩, ?_⟩
        rintro j ⟨hj, hjv⟩
        have hj4 : j < 4 := by simpa using hj
        interval_cases j <;> first | rfl | exact absurd hjv (by decide)
      · refine ⟨1, ⟨by norm_num, by decide⟩, ?_⟩
        rintro j ⟨hj, hjv⟩
        have hj4 : j < 4 := by simpa using hj
        interval_cases j <;> first | rfl | exact absurd hjv (by decide)
      · refine ⟨3, ⟨by norm_num, by decide⟩, ?_⟩
        rintro j ⟨hj, hjv⟩
        have hj4 : j < 4 := by simpa using hj
        interval_cases j <;> first | rfl | exact absurd hjv (by decide)
      · refine ⟨2, ⟨by norm_num, by decide⟩, ?_⟩
        rintro j ⟨hj, hjv⟩
        have hj4 : j < 4 := by simpa using hj
        interval_cases j <;> first | rfl | exact absurd hjv (by decide)
  | succ o ho ih =>
      intro x y hx hy
      have hs1 : 1 ≤ (2 : Nat) ^ o := Nat.one_le_two_pow
      have h2s : (2 : Nat) ^ (o + 1) = 2 * 2 ^ o := pow_succ' 2 o
      have h4s : (4 : Nat) ^ (o + 1) = 4 ^ o * 4 := pow_succ 4 o
      have hpos : 0 < (4 : Nat) ^ o := pow_pos (by norm_num) o
      rw [h2s] at hx hy
      rcases Nat.lt_or_ge x (2 ^ o) with hxs | hxs <;>
        rcases Nat.lt_or_ge y (2 ^ o) with hys | hys
      · -- quadrant 0 : x < 2^o, y < 2^o, sub-point (y, x)
        obtain ⟨r, ⟨hr, hrval⟩, hruniq⟩ := ih y x hys hxs
        refine ⟨4 ^ o * 0 + r, ⟨index_lt o 0 r (by norm_num) hr, ?_⟩, ?_⟩
        · rw [hilbert_succ _ o ho, index_div o 0 r (by norm_num) hr,
            ← hilbert_mod o ho, index_mod o 0 r hr, hrval]
          norm_num [hilbertStep]
        · rintro j ⟨hj, hjv⟩
          rw [h4s] at hj
          have hqj : j / 4 ^ o < 4 := Nat.div_lt_of_lt_mul hj
          rw [hilbert_succ j o ho, ← hilbert_mod o ho j,
            Nat.mod_eq_of_lt hqj] at hjv
          rcases hcd : hilbert (j % 4 ^ o) o with ⟨c, d⟩
          rw [hcd] at hjv
          have hc : c < 2 ^ o := by
            have h := hilbert_lt (j % 4 ^ o) o ho; rw [hcd] at h; exact h.1
          have hd : d < 2 ^ o := by
            have h := hilbert_lt (j % 4 ^ o) o ho; rw [hcd] at h; exact h.2
          have hj_eq : j = 4 ^ o * (j / 4 ^ o) + j % 4 ^ o :=
            (Nat.div_add_mod j (4 ^ o)).symm
          rcases (show ∀ A : Nat, A < 4 → A = 0 ∨ A = 1 ∨ A = 2 ∨ A = 3 from
              fun A hA => by omega) (j / 4 ^ o) hqj with h0 | h0 | h0 | h0 <;>
            rw [h0] at hjv <;> norm_num [hilbertStep, Prod.mk.injEq] at hjv <;>
            [skip; omega; omega; omega]
          obtain ⟨h1, h2⟩ := hjv
          have hmodr : j % 4 ^ o = r := by
            refine hruniq (j % 4 ^ o) ⟨Nat.mod_lt j hpos, ?_⟩
            rw [hcd, h1, h2]
          rw [h0, hmodr] at hj_eq
          exact hj_eq
      · -- quadrant 1 : x < 2^o, y ≥ 2^o, sub-point (x, y - 2^o)
        obtain ⟨r, ⟨hr, hrval⟩, hruniq⟩ := ih x (y - 2 ^ o) hxs (by omega)
        refine ⟨4 ^ o * 1 + r, ⟨index_lt o 1 r (by norm_num) hr, ?_⟩, ?_⟩
        · rw [hilbert_succ _ o ho, index_div o 1 r (by norm_num) hr,
            ← hilbert_mod o ho, index_mod o 1 r hr, hrval]
          norm_num [hilbertStep, Prod.mk.injEq]
          omega
        · rintro j ⟨hj, hjv⟩
          rw [h4s] at hj
          have hqj : j / 4 ^ o < 4 := Nat.div_lt_of_lt_mul hj
          rw [hilbert_succ j o ho, ← hilbert_mod o ho j,
            Nat.mod_eq_of_lt hqj] at hjv
          rcases hcd : hilbert (j % 4 ^ o) o with ⟨c, d⟩
          rw [hcd] at hjv
          have hc : c < 2 ^ o := by
            have h := hilbert_lt (j % 4 ^ o) o ho; rw [hcd] at h; exact h.1
          have hd : d < 2 ^ o := by
            have h := hilbert_lt (j % 4 ^ o) o ho; rw [hcd] at h; exact h.2
          have hj_eq : j = 4 ^ o * (j / 4 ^ o) + j % 4 ^ o :=
            (Nat.div_add_mod j (4 ^ o)).symm
          rcases (show ∀ A : Nat, A < 4 → A = 0 ∨ A = 1 ∨ A = 2 ∨ A = 3 from
              fun A hA => by omega) (j / 4 ^ o) hqj with h0 | h0 | h0 | h0 <;>
            rw [h0] at hjv <;> norm_num [hilbertStep, Prod.mk.injEq] at hjv <;>
            [omega; skip; omega; omega]
          obtain ⟨h1, h2⟩ := hjv
          have hca : c = x := by omega
          have hdb : d = y - 2 ^ o := by omega
          have hmodr : j % 4 ^ o = r := by
            refine hruniq (j % 4 ^ o) ⟨Nat.mod_lt j hpos, ?_⟩
            rw [hcd, hca, hdb]
          rw [h0, hmodr] at hj_eq
          exact hj_eq
      · -- quadrant 3 : x ≥ 2^o, y < 2^o, sub-point (2^o-1-y, 2*2^o-1-x)
        obtain ⟨r, ⟨hr, hrval⟩, hruniq⟩ :=
          ih (2 ^ o - 1 - y) (2 * 2 ^ o - 1 - x) (by omega) (by omega)
        refine ⟨4 ^ o * 3 + r, ⟨index_lt o 3 r (by norm_num) hr, ?_⟩, ?_⟩
        · rw [hilbert_succ _ o ho, index_div o 3 r (by norm_num) hr,
            ← hilbert_mod o ho, index_mod o 3 r hr, hrval]
          norm_num [hilbertStep, Prod.mk.injEq]
          omega
        · rintro j ⟨hj, hjv⟩
          rw [h4s] at hj
          have hqj : j / 4 ^ o < 4 := Nat.div_lt_of_lt_mul hj
          rw [hilbert_succ j o ho, ← hilbert_mod o ho j,
            Nat.mod_eq_of_lt hqj] at hjv
          rcases hcd : hilbert (j % 4 ^ o) o with ⟨c, d⟩
          rw [hcd] at hjv
          have hc : c < 2 ^ o := by
            have h := hilbert_lt (j % 4 ^ o) o ho; rw [hcd] at h; exact h.1
          have hd : d < 2 ^ o := by
            have h := hilbert_lt (j % 4 ^ o) o ho; rw [hcd] at h; exact h.2
          have hj_eq : j = 4 ^ o * (j / 4 ^ o) + j % 4 ^ o :=
            (Nat.div_add_mod j (4 ^ o)).symm
          rcases (show ∀ A : Nat, A < 4 → A = 0 ∨ A = 1 ∨ A = 2 ∨ A = 3 from
              fun A hA => by omega) (j / 4 ^ o) hqj with h0 | h0 | h0 | h0 <;>
            rw [h0] at hjv <;> norm_num [hilbertStep, Prod.mk.injEq] at hjv <;>
            [omega; omega; omega; skip]
          obtain ⟨h1, h2⟩ := hjv
          have hca : c = 2 ^ o - 1 - y := by omega
          have hdb : d = 2 * 2 ^ o - 1 - x := by omega
          have hmodr : j % 4 ^ o = r := by
            refine hruniq (j % 4 ^ o) ⟨Nat.mod_lt j hpos, ?_⟩
            rw [hcd, hca, hdb]
          rw [h0, hmodr] at hj_eq
          exact hj_eq
      · -- quadrant 2 : x ≥ 2^o, y ≥ 2^o, sub-point (x - 2^o, y - 2^o)
        obtain ⟨r, ⟨hr, hrval⟩, hruniq⟩ :=
          ih (x - 2 ^ o) (y - 2 ^ o) (by omega) (by omega)
        refine ⟨4 ^ o * 2 + r, ⟨index_lt o 2 r (by norm_num) hr, ?_⟩, ?_⟩
        · rw [hilbert_succ _ o ho, index_div o 2 r (by norm_num) hr,
            ← hilbert_mod o ho, index_mod o 2 r hr, hrval]
          norm_num [hilbertStep, Prod.mk.injEq]
          omega
        · rintro j ⟨hj, hjv⟩
          rw [h4s] at hj
          have hqj : j / 4 ^ o < 4 := Nat.div_lt_of_lt_mul hj
          rw [hilbert_succ j o ho, ← hilbert_mod o ho j,
            Nat.mod_eq_of_lt hqj] at hjv
          rcases hcd : hilbert (j % 4 ^ o) o with ⟨c, d⟩
          rw [hcd] at hjv
          have hc : c < 2 ^ o := by
            have h := hilbert_lt (j % 4 ^ o) o ho; rw [hcd] at h; exact h.1
          have hd : d < 2 ^ o := by
            have h := hilbert_lt (j % 4 ^ o) o ho; rw [hcd] at h; exact h.2
          have hj_eq : j = 4 ^ o * (j / 4 ^ o) + j % 4 ^ o :=
            (Nat.div_add_mod j (4 ^ o)).symm
          rcases (show ∀ A : Nat, A < 4 → A = 0 ∨ A = 1 ∨ A = 2 ∨ A = 3 from
              fun A hA => by omega) (j / 4 ^ o) hqj with h0 | h0 | h0 | h0 <;>
            rw [h0] at hjv <;> norm_num [hilbertStep, Prod.mk.injEq] at hjv <;>
            [omega; omega; skip; omega]
          obtain ⟨h1, h2⟩ := hjv
          have hca : c = x - 2 ^ o := by omega
          have hdb : d = y - 2 ^ o := by omega
          have hmodr : j % 4 ^ o = r := by
            refine hruniq (j % 4 ^ o) ⟨Nat.mod_lt j hpos, ?_⟩
            rw [hcd, hca, hdb]
          rw [h0, hmodr] at hj_eq
          exact hj_eq

/-- Claim C2: for every order ≥ 1, `i ↦ hilbert(i, order)` restricted to
`[0, 4^order)` is a bijection onto the `2^order × 2^order` grid: every
index lands in the grid, and every lattice cell `(x, y)` with
`x, y < 2^order` is produced by exactly one index. -/
theorem hilbert_bijection (o : Nat) (ho : 1 ≤ o) :
    (∀ i, i < 4 ^ o → (hilbert i o).1 < 2 ^ o ∧ (hilbert i o).2 < 2 ^ o) ∧
    (∀ x y, x < 2 ^ o → y < 2 ^ o → ∃! i, i < 4 ^ o ∧ hilbert i o = (x, y)) :=
  ⟨fun i _ => hilbert_lt i o ho, hilbert_existsUnique o ho⟩

theorem hilbert_bijection_witness :
    (∀ i, i < 4 ^ 2 → (hilbert i 2).1 < 2 ^ 2 ∧ (hilbert i 2).2 < 2 ^ 2) ∧
    (∀ x y, x < 2 ^ 2 → y < 2 ^ 2 → ∃! i, i < 4 ^ 2 ∧ hilbert i 2 = (x, y)) :=
  hilbert_bijection 2 (by norm_num)

/-! ## Curve locality of `hilbert` (claim C4) -/

/-- Manhattan distance on the lattice, written with truncated subtraction:
`(a - b) + (b - a)` over `Nat` equals `|a - b|`. -/
def mdist (p q : Nat × Nat) : Nat :=
  (p.1 - q.1) + (q.1 - p.1) + ((p.2 - q.2) + (q.2 - p.2))

/-- The Hilbert curve starts at the origin at every order. -/
theorem hilbert_zero (o : Nat) : hilbert 0 o = (0, 0) := by
  induction o with
  | zero => rfl
  | succ n ih =>
      rcases Nat.eq_zero_or_pos n with h | h
      · subst h; rfl
      · rw [hilbert_succ 0 n h]
        have h0 : 0 / 4 ^ n % 4 = 0 := by simp
        rw [h0, ih]
        norm_num [hilbertStep]

/-- The Hilbert curve of order `o ≥ 1` ends at `(2^o - 1, 0)`. -/
theorem hilbert_last (o : Nat) (ho : 1 ≤ o) :
    hilbert (4 ^ o - 1) o = (2 ^ o - 1, 0) := by
  induction o, ho using Nat.le_induction with
  | base => decide
  | succ o ho ih =>
      have hpos : 0 < (4 : Nat) ^ o := pow_pos (by norm_num) o
      have h4 : (4 : Nat) ^ (o + 1) = 4 ^ o * 4 := pow_succ 4 o
      have hids : 4 ^ (o + 1) - 1 = 4 ^ o * 3 + (4 ^ o - 1) := by rw [h4]; omega
      rw [hilbert_succ _ o ho, hids, index_div o 3 _ (by norm_num) (by omega),
        ← hilbert_mod o ho, index_mod o 3 _ (by omega), ih]
      have h2 : (2 : Nat) ^ (o + 1) = 2 * 2 ^ o := pow_succ' 2 o
      have hs1 : 1 ≤ (2 : Nat) ^ o := Nat.one_le_two_pow
      norm_num [hilbertStep, Prod.mk.injEq]
      omega

/-- Each level transform is an isometry for the Manhattan distance on
points of the `s × s` grid. -/
theorem hilbertStep_mdist (s q : Nat) (p r : Nat × Nat) (hq : q < 4) (hs : 1 ≤ s)
    (hp1 : p.1 < s) (hp2 : p.2 < s) (hr1 : r.1 < s) (hr2 : r.2 < s) :
    mdist (hilbertStep s q p) (hilbertStep s q r) = mdist p r := by
  rcases (show q = 0 ∨ q = 1 ∨ q = 2 ∨ q = 3 from by omega) with h | h | h | h <;>
    subst h <;> (try norm_num [hilbertStep, mdist]) <;> omega

/-- Claim C4: consecutive Hilbert indices map to lattice-adjacent points:
for every order ≥ 1 and every `i` with `i + 1 < 4^order`, the Manhattan
distance between `hilbert(i, order)` and `hilbert(i+1, order)` is exactly 1. -/
theorem hilbert_locality (o i : Nat) (ho : 1 ≤ o) (hi : i + 1 < 4 ^ o) :
    mdist (hilbert i o) (hilbert (i + 1) o) = 1 := by
  induction o, ho using Nat.le_induction generalizing i with
  | base =>
      norm_num at hi
      have hi3 : i < 3 := by omega
      interval_cases i <;> decide
  | succ o ho ih =>
      have hpos : 0 < (4 : Nat) ^ o := pow_pos (by norm_num) o
      have h4 : (4 : Nat) ^ (o + 1) = 4 ^ o * 4 := pow_succ 4 o
      have hs1 : 1 ≤ (2 : Nat) ^ o := Nat.one_le_two_pow
      have hqi : i / 4 ^ o < 4 := Nat.div_lt_of_lt_mul (by omega)
      have h1 : 4 ^ o * (i / 4 ^ o) + i % 4 ^ o = i := Nat.div_add_mod i (4 ^ o)
      rw [hilbert_succ i o ho, hilbert_succ (i + 1) o ho]
      rcases Nat.lt_or_ge (i % 4 ^ o) (4 ^ o - 1) with hr | hr
      · -- `i` and `i+1` share all base-4 digits above the lowest level block
        have hsame : i + 1 = 4 ^ o * (i / 4 ^ o) + (i % 4 ^ o + 1) := by omega
        have hdiv : (i + 1) / 4 ^ o = i / 4 ^ o := by
          rw [hsame, Nat.mul_add_div hpos,
            Nat.div_eq_of_lt (by omega : i % 4 ^ o + 1 < 4 ^ o), Nat.add_zero]
        have hmod : (i + 1) % 4 ^ o = i % 4 ^ o + 1 := by
          rw [hsame, Nat.mul_add_mod]
          exact Nat.mod_eq_of_lt (by omega)
        rw [hdiv, ← hilbert_mod o ho i, ← hilbert_mod o ho (i + 1), hmod]
        have hb1 := hilbert_lt (i % 4 ^ o) o ho
        have hb2 := hilbert_lt (i % 4 ^ o + 1) o ho
        have hd4 : i / 4 ^ o % 4 < 4 := Nat.mod_lt _ (by norm_num)
        rw [hilbertStep_mdist _ _ _ _ hd4 hs1 hb1.1 hb1.2 hb2.1 hb2.2]
        exact ih _ (by omega)
      · -- `i+1` crosses a top-level quadrant boundary
        have hreq : i % 4 ^ o = 4 ^ o - 1 := by
          have := Nat.mod_lt i hpos
          omega
        have hkey : i + 1 = 4 ^ o * (i / 4 ^ o + 1) := by
          rw [Nat.mul_add, Nat.mul_one]
          omega
        have hi1div : (i + 1) / 4 ^ o = i / 4 ^ o + 1 := by
          rw [hkey]
          exact Nat.mul_div_cancel_left _ hpos
        have hi1mod : (i + 1) % 4 ^ o = 0 := by
          rw [hkey]
          exact Nat.mul_mod_right _ _
        have hq3 : (i + 1) / 4 ^ o < 4 := Nat.div_lt_of_lt_mul (by omega)
        rw [← hilbert_mod o ho i, ← hilbert_mod o ho (i + 1), hreq, hi1mod, hi1div,
          hilbert_zero, hilbert_last o ho, Nat.mod_eq_of_lt hqi,
          Nat.mod_eq_of_lt (by omega : i / 4 ^ o + 1 < 4)]
        rcases (show ∀ A : Nat, A + 1 < 4 → A = 0 ∨ A = 1 ∨ A = 2 from
            fun A hA => by omega) (i / 4 ^ o) (by omega) with h0 | h0 | h0 <;>
          rw [h0] <;> (try norm_num [hilbertStep, mdist]) <;> omega

theorem hilbert_locality_witness :
    mdist (hilbert 7 2) (hilbert 8 2) = 1 :=
  hilbert_locality 2 7 (by norm_num) (by norm_num)

/-! ## The halftoning engine (`digital_halftoning.py`)

Images and output grids are lists of rows of intensities; `numpy` reads
`image_in[y, x]` and writes `halftone[y, x] = v` become `getPix`/`setPix`
(row `y`, column `x`).  All indices produced by the clipped curve are in
bounds, where `List.getD`/`List.set` agree with the numpy accesses. -/

def getPix (g : List (List Nat)) (y x : Nat) : Nat := (g.getD y []).getD x 0

def setPix (g : List (List Nat)) (y x v : Nat) : List (List Nat) :=
  g.set y ((g.getD y []).set x v)

/-- `np.zeros_like(image_in)`: a grid of zeros of the same shape. -/
def zeros_like (g : List (List Nat)) : List (List Nat) :=
  g.map (fun r => r.map (fun _ => 0))

/-- `shape[0]` of a 2D array: the number of rows. -/
def gridH (g : List (List Nat)) : Nat := g.length

/-- `shape[1]` of a 2D array: the row length. -/
def gridW (g : List (List Nat)) : Nat := (g.getD 0 []).length

/-- `order(image_in, curve_type)`: the source computes
`ceil(log_base(max(image_in.shape)))` with double-precision logarithms;
this is embedded as the exact real-logarithm ceiling, namely the least
`o` with `base^o ≥ max(shape)` (searched over `0..max(shape)`, which
always contains it since `base ≥ 2`). -/
def order (image_in : List (List Nat)) (ct : CurveType) : Nat :=
  ((List.range (max (gridH image_in) (gridW image_in) + 1)).find?
    (fun o => max (gridH image_in) (gridW image_in) ≤ ct.base ^ o)).getD 0

/-- Line 139: keep the curve points inside the image,
`x < halftone.shape[1] and y < halftone.shape[0]`, order preserved. -/
def clip (curve : List (Nat × Nat)) (w h : Nat) : List (Nat × Nat) :=
  curve.filter (fun p => p.1 < w && p.2 < h)

/-- The section sizes `np.array_split` uses for `l` elements in `n`
sections: `l % n` sections of `l / n + 1` elements, then the rest of
`l / n` elements. -/
def splitSizes (l n : Nat) : List Nat :=
  List.replicate (l % n) (l / n + 1) ++ List.replicate (n - l % n) (l / n)

/-- Cut successive chunks of the given sizes off the front of a list. -/
def takeDrop {α : Type} : List Nat → List α → List (List α)
  | [], _ => []
  | s :: ss, xs => xs.take s :: takeDrop ss (xs.drop s)

/-- `np.array_split(xs, n)` for `n ≥ 1`. -/
def array_split {α : Type} (xs : List α) (n : Nat) : List (List α) :=
  takeDrop (splitSizes xs.length n) xs

/-- The two ways lines 141–142 can raise: `len(curve) // cluster_size`
divides by zero when `cluster_size == 0`, and `np.array_split` rejects a
non-positive section count (which `n_clusters` is whenever
`cluster_size < 0`, since Python `//` is floor division). -/
inductive HalftoningError
  | zeroDivisionError
  | numpySplitError
deriving DecidableEq, Repr

/-- Lines 141–142: `n_clusters = len(curve) // cluster_size` followed by
`np.array_split(curve, n_clusters)`.  Python `//` on ints is floor
division, `Int.fdiv`. -/
def partitionCurve (points : List (Nat × Nat)) (cluster_size : Int) :
    Except HalftoningError (List (List (Nat × Nat))) :=
  if cluster_size = 0 then .error .zeroDivisionError
  else if Int.fdiv points.length cluster_size ≤ 0 then .error .numpySplitError
  else .ok (array_split points (Int.fdiv points.length cluster_size).toNat)

/-- The within-cluster distribution policies of the source. -/
inductive Distribution
  | standard
  | ordered
  | random
deriving DecidableEq, Repr

/-- Lines 146–151: `ordered` stable-sorts the cluster ascending by source
intensity (`sorted` with key `image_in[p[1], p[0]]`); `random` shuffles it
in place (`np.random.shuffle`), modelled by a caller-supplied permutation
oracle `shuffle`; `standard` keeps curve order.  With the enumerated type
the `ValueError` branch for an unknown name has no counterpart. -/
def applyDist (shuffle : List (Nat × Nat) → List (Nat × Nat))
    (image : List (List Nat)) (dist : Distribution)
    (cluster : List (Nat × Nat)) : List (Nat × Nat) :=
  match dist with
  | .standard => cluster
  | .ordered =>
      cluster.mergeSort (fun p q => getPix image p.2 p.1 ≤ getPix image q.2 q.1)
  | .random => shuffle cluster

/-- Lines 153–154, the accumulation pass:
`intensity_accumulator += image_in[y, x]` over the cluster. -/
def accumulate (image : List (List Nat)) (acc : Nat)
    (cluster : List (Nat × Nat)) : Nat :=
  cluster.foldl (fun a p => a + getPix image p.2 p.1) acc

/-- Lines 156–161, the emission pass: walk the cluster again; while the
accumulator holds at least 255, write ink (255) and subtract 255,
otherwise write paper (0). -/
def emit : List (Nat × Nat) → List (List Nat) → Nat → List (List Nat) × Nat
  | [], g, a => (g, a)
  | p :: rest, g, a =>
      if 255 ≤ a then emit rest (setPix g p.2 p.1 255) (a - 255)
      else emit rest (setPix g p.2 p.1 0) a

/-- One iteration of the `for cluster in clusters` loop body (after the
distribution reordering): accumulate the cluster, then emit over it. -/
def processCluster (image : List (List Nat)) (st : List (List Nat) × Nat)
    (cluster : List (Nat × Nat)) : List (List Nat) × Nat :=
  emit cluster st.1 (accumulate image st.2 cluster)

/-- The whole cluster loop, threading `(halftone, intensity_accumulator)`. -/
def runClusters (shuffle : List (Nat × Nat) → List (Nat × Nat))
    (image : List (List Nat)) (dist : Distribution)
    (st : List (List Nat) × Nat) (clusters : List (List (Nat × Nat))) :
    List (List Nat) × Nat :=
  clusters.foldl (fun st c => processCluster image st (applyDist shuffle image dist c)) st

/-- Lines 138–139: the generated curve, clipped to the image bounds (the
source computes the order and shape from `halftone = zeros_like(image_in)`,
which has the shape of `image_in`). -/
def visitedCurve (image_in : List (List Nat)) (ct : CurveType) : List (Nat × Nat) :=
  clip (space_filling_curve ct (order (zeros_like image_in) ct))
    (gridW (zeros_like image_in)) (gridH (zeros_like image_in))

/-- `halftoning(image_in, curve_type, cluster_size, distribution)`,
lines 136–163.  `shuffle` is the injected randomness source used only by
the `random` distribution. -/
def halftoning (shuffle : List (Nat × Nat) → List (Nat × Nat))
    (image_in : List (List Nat)) (curve_type : CurveType)
    (cluster_size : Int) (dist : Distribution) :
    Except HalftoningError (List (List Nat)) :=
  match partitionCurve (visitedCurve image_in curve_type) cluster_size with
  | .error e => .error e
  | .ok clusters =>
      .ok (runClusters shuffle image_in dist (zeros_like image_in, 0) clusters).1

/-- Sum of all cells of a grid (`sum(output)` of the spec). -/
def gridSum (g : List (List Nat)) : Nat := (g.map (fun r => r.sum)).sum

/-- Total intensity accumulated over the whole traversal: the sum of the
source intensities over the pixels visited by the clipped curve, one
summand per curve point. -/
def visitedIntensitySum (image_in : List (List Nat)) (ct : CurveType) : Nat :=
  ((visitedCurve image_in ct).map (fun p => getPix image_in p.2 p.1)).sum

/-! ## Properties of `array_split` and `partitionCurve` (claims C7, C8, C10) -/

theorem takeDrop_length {α : Type} :
    ∀ (ss : List Nat) (xs : List α), (takeDrop ss xs).length = ss.length := by
  intro ss
  induction ss with
  | nil => intro xs; rfl
  | cons s ss ih =>
      intro xs
      simp [takeDrop, ih]

theorem takeDrop_join {α : Type} :
    ∀ (ss : List Nat) (xs : List α), (takeDrop ss xs).join = xs.take ss.sum := by
  intro ss
  induction ss with
  | nil => intro xs; simp [takeDrop]
  | cons s ss ih =>
      intro xs
      simp only [takeDrop, List.join_cons, List.sum_cons, ih, List.take_add]

theorem takeDrop_lengths {α : Type} :
    ∀ (ss : List Nat) (xs : List α), ss.sum ≤ xs.length →
      (takeDrop ss xs).map List.length = ss := by
  intro ss
  induction ss with
  | nil => intro xs _; rfl
  | cons s ss ih =>
      intro xs h
      simp only [List.sum_cons] at h
      simp only [takeDrop, List.map_cons, List.length_take]
      rw [inf_eq_left.mpr (by omega), ih (xs.drop s) (by rw [List.length_drop]; omega)]

theorem takeDrop_mem {α : Type} :
    ∀ (ss : List Nat) (xs : List α) (c : List α), c ∈ takeDrop ss xs →
      ∀ p ∈ c, p ∈ xs := by
  intro ss
  induction ss with
  | nil => intro xs c hc; simp [takeDrop] at hc
  | cons s ss ih =>
      intro xs c hc p hp
      simp only [takeDrop, List.mem_cons] at hc
      rcases hc with hc | hc
      · subst hc
        exact List.mem_of_mem_take hp
      · exact List.drop_subset s xs (ih (xs.drop s) c hc p hp)

theorem splitSizes_sum (l n : Nat) (hn : 1 ≤ n) : (splitSizes l n).sum = l := by
  unfold splitSizes
  rw [List.sum_append, List.sum_replicate, List.sum_replicate, smul_eq_mul, smul_eq_mul]
  have hmod : l % n < n := Nat.mod_lt _ (by omega)
  have hdm : n * (l / n) + l % n = l := Nat.div_add_mod l n
  have h1 : l % n * (l / n + 1) = l % n * (l / n) + l % n := by ring
  have h2 : (n - l % n) * (l / n) = n * (l / n) - l % n * (l / n) := Nat.sub_mul n (l % n) (l / n)
  have h3 : l % n * (l / n) ≤ n * (l / n) := Nat.mul_le_mul_right _ (le_of_lt hmod)
  omega

theorem splitSizes_length (l n : Nat) (hn : 1 ≤ n) : (splitSizes l n).length = n := by
  unfold splitSizes
  have hmod : l % n < n := Nat.mod_lt _ (by omega)
  simp [List.length_replicate]
  omega

theorem fdiv_toNat (l : Nat) (cs : Int) (h : 1 ≤ cs) :
    (Int.fdiv l cs).toNat = l / cs.toNat := by
  rw [Int.fdiv_eq_ediv _ (by omega)]
  rw [show cs = ((cs.toNat : Nat) : Int) from (Int.toNat_of_nonneg (by omega)).symm]
  rw [← Int.natCast_div, Int.toNat_natCast, Int.toNat_natCast]

theorem fdiv_pos (l : Nat) (cs : Int) (h : 1 ≤ cs) (h2 : cs ≤ l) :
    1 ≤ Int.fdiv l cs := by
  rw [Int.fdiv_eq_ediv _ (by omega)]
  have h3 := Int.ediv_le_ediv (by omega : (0 : Int) < cs) h2
  rwa [Int.ediv_self (by omega)] at h3

theorem partitionCurve_pos (points : List (Nat × Nat)) (cs : Int)
    (h1 : 1 ≤ cs) (h2 : cs ≤ points.length) :
    partitionCurve points cs =
      Except.ok (array_split points (points.length / cs.toNat)) := by
  unfold partitionCurve
  rw [if_neg (by omega), if_neg (by have := fdiv_pos points.length cs h1 h2; omega),
    fdiv_toNat _ _ h1]

/-- C7 counterexample: splitting 5 points with clusterSize 2, the code
(`np.array_split(points, 5 // 2)`) produces 2 groups with sizes `[3, 2]`,
not `⌈5/2⌉ = 3` groups with all but the last of size 2 (`[2, 2, 1]`). -/
theorem partitionCurve_counterexample :
    (partitionCurve [(0, 0), (1, 0), (2, 0), (3, 0), (4, 0)] 2).map
        (List.map List.length) = Except.ok [3, 2] ∧
      (Except.ok [3, 2] : Except HalftoningError (List Nat)) ≠ Except.ok [2, 2, 1] := by
  constructor
  · rfl
  · intro h
    simp at h

/-- Claim C7 (amended): for a non-empty point sequence and
`1 ≤ clusterSize ≤ len(points)`, the code partitions the points into
`n = ⌊len(points) / clusterSize⌋` contiguous groups (not
`⌈len/clusterSize⌉`), which concatenate back to the original sequence;
the group sizes are as equal as possible, `⌊len/n⌋ + 1` for the first
`len mod n` groups and `⌊len/n⌋` for the rest (not `clusterSize` for all
but the last).  When `clusterSize > len(points)` the split fails instead
of producing one short group. -/
theorem partitionCurve_amended (points : List (Nat × Nat)) (cs : Int)
    (h1 : 1 ≤ cs) (h2 : cs ≤ points.length) :
    ∃ cl, partitionCurve points cs = Except.ok cl
      ∧ cl.length = points.length / cs.toNat
      ∧ cl.join = points
      ∧ cl.map List.length = splitSizes points.length (points.length / cs.toNat) := by
  have hct : 1 ≤ cs.toNat := by omega
  have hlen : cs.toNat ≤ points.length := by omega
  have hn1 : 1 ≤ points.length / cs.toNat := (Nat.one_le_div_iff (by omega)).mpr hlen
  refine ⟨_, partitionCurve_pos points cs h1 h2, ?_, ?_, ?_⟩
  · unfold array_split
    rw [takeDrop_length, splitSizes_length _ _ hn1]
  · unfold array_split
    rw [takeDrop_join, splitSizes_sum _ _ hn1, List.take_length]
  · unfold array_split
    refine takeDrop_lengths _ _ ?_
    rw [splitSizes_sum _ _ hn1]

theorem partitionCurve_amended_witness :
    ∃ cl, partitionCurve [(0, 0), (1, 0), (2, 0), (3, 0), (4, 0)] 2 = Except.ok cl
      ∧ cl.length = [(0, 0), (1, 0), (2, 0), (3, 0), (4, 0)].length / (2 : Int).toNat
      ∧ cl.join = [(0, 0), (1, 0), (2, 0), (3, 0), (4, 0)]
      ∧ cl.map List.length =
        splitSizes [(0, 0), (1, 0), (2, 0), (3, 0), (4, 0)].length
          ([(0, 0), (1, 0), (2, 0), (3, 0), (4, 0)].length / (2 : Int).toNat) :=
  partitionCurve_amended [(0, 0), (1, 0), (2, 0), (3, 0), (4, 0)] 2 (by norm_num)
    (by norm_num)

/-- Everything inside any section produced by `array_split` comes from the
input sequence. -/
theorem partitionCurve_mem (points : List (Nat × Nat)) (cs : Int)
    (clusters : List (List (Nat × Nat)))
    (h : partitionCurve points cs = Except.ok clusters) :
    ∀ c ∈ clusters, ∀ p ∈ c, p ∈ points := by
  unfold partitionCurve at h
  by_cases hz : cs = 0
  · rw [if_pos hz] at h
    exact absurd h (by simp)
  · rw [if_neg hz] at h
    by_cases hle : Int.fdiv (points.length : Int) cs ≤ 0
    · rw [if_pos hle] at h
      exact absurd h (by simp)
    · rw [if_neg hle, Except.ok.injEq] at h
      subst h
      intro c hc p hp
      exact takeDrop_mem _ _ c hc p hp

/-- Claim C8: for every `clusterSize ≤ 0` the engine fails before
emitting anything: `cluster_size == 0` hits the `ZeroDivisionError` of
`len(curve) // cluster_size`, and `cluster_size < 0` makes `n_clusters`
non-positive, which `np.array_split` rejects; either way `halftoning`
produces an error and no output grid. -/
theorem halftoning_invalid_cluster_size
    (shuffle : List (Nat × Nat) → List (Nat × Nat)) (image_in : List (List Nat))
    (ct : CurveType) (cs : Int) (dist : Distribution) (hcs : cs ≤ 0) :
    ∃ e, halftoning shuffle image_in ct cs dist = Except.error e := by
  unfold halftoning partitionCurve
  rcases eq_or_lt_of_le hcs with h0 | h0
  · rw [if_pos h0]
    exact ⟨HalftoningError.zeroDivisionError, rfl⟩
  · rw [if_neg (by omega), if_pos (Int.fdiv_nonpos (Int.natCast_nonneg _) (le_of_lt h0))]
    exact ⟨HalftoningError.numpySplitError, rfl⟩

theorem halftoning_invalid_cluster_size_witness :
    ∃ e, halftoning (fun l => l) [[7]] CurveType.hilbert 0 Distribution.standard =
      Except.error e :=
  halftoning_invalid_cluster_size (fun l => l) [[7]] CurveType.hilbert 0
    Distribution.standard (by norm_num)

/-- Claim C10: when the clipped curve is non-empty and the cluster size
exceeds its length, `n_clusters = len(curve) // cluster_size` is 0 and
`np.array_split` raises, so `halftoning` fails instead of producing one
short cluster. -/
theorem halftoning_cluster_larger_than_curve
    (shuffle : List (Nat × Nat) → List (Nat × Nat)) (image_in : List (List Nat))
    (ct : CurveType) (cs : Int) (dist : Distribution)
    (hne : visitedCurve image_in ct ≠ []) (h1 : 1 ≤ cs)
    (hlt : ((visitedCurve image_in ct).length : Int) < cs) :
    halftoning shuffle image_in ct cs dist =
      Except.error HalftoningError.numpySplitError := by
  unfold halftoning partitionCurve
  have hfd : Int.fdiv ((visitedCurve image_in ct).length : Int) cs =
      ((visitedCurve image_in ct).length : Int) / cs := Int.fdiv_eq_ediv _ (by omega)
  have hz : ((visitedCurve image_in ct).length : Int) / cs = 0 :=
    Int.ediv_eq_zero_of_lt (Int.natCast_nonneg _) hlt
  rw [if_neg (by omega), if_pos (by rw [hfd, hz])]

theorem halftoning_cluster_larger_than_curve_witness :
    halftoning (fun l => l) [[5]] CurveType.hilbert 2 Distribution.standard =
      Except.error HalftoningError.numpySplitError :=
  halftoning_cluster_larger_than_curve (fun l => l) [[5]] CurveType.hilbert 2
    Distribution.standard (by decide) (by norm_num) (by decide)

/-! ## The accumulator carry invariant (claim C5) -/

theorem accumulate_le (image : List (List Nat)) (cluster : List (Nat × Nat))
    (h255 : ∀ y x, getPix image y x ≤ 255) :
    ∀ acc, accumulate image acc cluster ≤ acc + 255 * cluster.length := by
  induction cluster with
  | nil => intro acc; simp [accumulate]
  | cons p rest ih =>
      intro acc
      have hb := h255 p.2 p.1
      have hr := ih (acc + getPix image p.2 p.1)
      simp only [accumulate, List.foldl_cons] at hr ⊢
      simp only [List.length_cons]
      omega

theorem emit_acc_le (cluster : List (Nat × Nat)) :
    ∀ (g : List (List Nat)) (a : Nat), a ≤ 254 + 255 * cluster.length →
      (emit cluster g a).2 ≤ 254 := by
  induction cluster with
  | nil =>
      intro g a h
      simpa [emit] using h
  | cons p rest ih =>
      intro g a h
      simp only [List.length_cons] at h
      unfold emit
      split_ifs with hge
      · exact ih _ _ (by omega)
      · exact ih _ _ (by omega)

theorem processCluster_acc (image : List (List Nat)) (st : List (List Nat) × Nat)
    (cluster : List (Nat × Nat)) (h255 : ∀ y x, getPix image y x ≤ 255)
    (hst : st.2 ≤ 254) : (processCluster image st cluster).2 ≤ 254 := by
  unfold processCluster
  refine emit_acc_le cluster st.1 _ ?_
  have h := accumulate_le image cluster h255 st.2
  omega

theorem runClusters_acc (shuffle : List (Nat × Nat) → List (Nat × Nat))
    (image : List (List Nat)) (dist : Distribution)
    (h255 : ∀ y x, getPix image y x ≤ 255) :
    ∀ (clusters : List (List (Nat × Nat))) (st : List (List Nat) × Nat),
      st.2 ≤ 254 → (runClusters shuffle image dist st clusters).2 ≤ 254 := by
  intro clusters
  induction clusters with
  | nil => intro st hst; simpa [runClusters] using hst
  | cons c rest ih =>
      intro st hst
      unfold runClusters at ih ⊢
      rw [List.foldl_cons]
      exact ih _ (processCluster_acc image st _ h255 hst)

/-- Claim C5: with all input intensities in `[0, 255]` and the accumulator
starting at 0, after each cluster of the halftoning run (any prefix of the
cluster list the run processes, under any distribution and any shuffle)
the accumulator is a non-negative integer strictly below 255, so every
cluster starts from a carry `< 255`. -/
theorem accumulator_carry_invariant
    (shuffle : List (Nat × Nat) → List (Nat × Nat)) (image_in : List (List Nat))
    (ct : CurveType) (cs : Int) (dist : Distribution)
    (clusters : List (List (Nat × Nat))) (k : Nat)
    (h255 : ∀ y x, getPix image_in y x ≤ 255)
    (hok : partitionCurve (visitedCurve image_in ct) cs = Except.ok clusters) :
    (runClusters shuffle image_in dist (zeros_like image_in, 0)
      (clusters.take k)).2 < 255 := by
  have h := runClusters_acc shuffle image_in dist h255 (clusters.take k)
    (zeros_like image_in, 0) (by norm_num)
  omega

theorem accumulator_carry_invariant_witness :
    (runClusters (fun l => l) [[255]] Distribution.standard
      (zeros_like [[255]], 0) ([[(0, 0)]].take 1)).2 < 255 :=
  accumulator_carry_invariant (fun l => l) [[255]] CurveType.hilbert 1
    Distribution.standard [[(0, 0)]] 1
    (by
      intro y x
      rcases y with _ | y
      · rcases x with _ | x <;> simp [getPix, List.getD]
      · simp [getPix, List.getD])
    (by rfl)

/-! ## Output postconditions (claim C6) -/

theorem getD_set_ne {α : Type} :
    ∀ (l : List α) (i j : Nat) (a d : α), i ≠ j →
      (l.set i a).getD j d = l.getD j d := by
  intro l
  induction l with
  | nil => intro i j a d _; rfl
  | cons b t ih =>
      intro i j a d hij
      cases i with
      | zero =>
          cases j with
          | zero => exact absurd rfl hij
          | succ j => rw [List.set_cons_zero, List.getD_cons_succ, List.getD_cons_succ]
      | succ i =>
          cases j with
          | zero => rw [List.set_cons_succ, List.getD_cons_zero, List.getD_cons_zero]
          | succ j =>
              rw [List.set_cons_succ, List.getD_cons_succ, List.getD_cons_succ]
              exact ih i j a d (by omega)

theorem getD_set_self {α : Type} :
    ∀ (l : List α) (i : Nat) (a d : α),
      (l.set i a).getD i d = if i < l.length then a else d := by
  intro l
  induction l with
  | nil => intro i a d; simp [List.getD]
  | cons b t ih =>
      intro i a d
      cases i with
      | zero => simp [List.set_cons_zero, List.getD_cons_zero]
      | succ i =>
          rw [List.set_cons_succ, List.getD_cons_succ, ih i a d]
          simp only [List.length_cons]
          congr 1
          simp [Nat.succ_lt_succ_iff]

theorem getD_default_mem {α : Type} :
    ∀ (l : List α) (y : Nat) (d : α), l.getD y d ∈ l ∨ l.getD y d = d := by
  intro l
  induction l with
  | nil => intro y d; right; exact List.getD_nil
  | cons b t ih =>
      intro y d
      cases y with
      | zero => left; rw [List.getD_cons_zero]; exact List.mem_cons_self b t
      | succ y =>
          rw [List.getD_cons_succ]
          rcases ih y d with h | h
          · left; exact List.mem_cons_of_mem b h
          · right; exact h

/-- Writes touch only their own coordinate. -/
theorem getPix_setPix_ne (g : List (List Nat)) (y x v y0 x0 : Nat)
    (h : y0 ≠ y ∨ x0 ≠ x) :
    getPix (setPix g y x v) y0 x0 = getPix g y0 x0 := by
  unfold getPix setPix
  rcases eq_or_ne y0 y with hy | hy
  · subst hy
    have hx : x0 ≠ x := by tauto
    rw [getD_set_self]
    split_ifs with hlen
    · rw [getD_set_ne _ _ _ _ _ (Ne.symm hx)]
    · rw [List.getD_eq_default g [] (by omega : g.length ≤ y0)]
  · rw [getD_set_ne _ _ _ _ _ (Ne.symm hy)]

theorem setPix_shape (g : List (List Nat)) (v : Nat) :
    ∀ (y x : Nat), (setPix g y x v).map List.length = g.map List.length := by
  induction g with
  | nil => intro y x; rfl
  | cons r t ih =>
      intro y x
      cases y with
      | zero =>
          unfold setPix
          rw [List.getD_cons_zero, List.set_cons_zero]
          simp [List.length_set]
      | succ y =>
          unfold setPix
          rw [List.getD_cons_succ, List.set_cons_succ]
          simp only [List.map_cons, List.cons.injEq]
          exact ⟨trivial, ih y x⟩

theorem zeros_like_shape (g : List (List Nat)) :
    (zeros_like g).map List.length = g.map List.length := by
  unfold zeros_like
  rw [List.map_map]
  simp

theorem getPix_zeros (g : List (List Nat)) :
    ∀ (y x : Nat), getPix (zeros_like g) y x = 0 := by
  induction g with
  | nil => intro y x; simp [zeros_like, getPix, List.getD]
  | cons r t ih =>
      intro y x
      cases y with
      | zero =>
          unfold zeros_like getPix
          rw [List.map_cons, List.getD_cons_zero]
          rcases getD_default_mem (r.map (fun _ => 0)) x 0 with h | h
          · obtain ⟨w, _, hw⟩ := List.mem_map.mp h
            omega
          · exact h
      | succ y =>
          unfold zeros_like getPix at ih ⊢
          rw [List.map_cons, List.getD_cons_succ]
          exact ih y x

/-- Every cell of the grid is ink (255) or paper (0). -/
def BinaryGrid (g : List (List Nat)) : Prop :=
  ∀ row ∈ g, ∀ v ∈ row, v = 0 ∨ v = 255

theorem setPix_binary (g : List (List Nat)) (y x v : Nat) (hg : BinaryGrid g)
    (hv : v = 0 ∨ v = 255) : BinaryGrid (setPix g y x v) := by
  intro row hrow w hw
  unfold setPix at hrow
  rcases List.mem_or_eq_of_mem_set hrow with h | h
  · exact hg row h w hw
  · subst h
    rcases List.mem_or_eq_of_mem_set hw with h2 | h2
    · rcases getD_default_mem g y [] with hm | hm
      · exact hg _ hm w h2
      · rw [hm] at h2
        simp at h2
    · subst h2
      exact hv

theorem emit_shape (cluster : List (Nat × Nat)) :
    ∀ (g : List (List Nat)) (a : Nat),
      (emit cluster g a).1.map List.length = g.map List.length := by
  induction cluster with
  | nil => intro g a; rfl
  | cons p rest ih =>
      intro g a
      unfold emit
      split_ifs <;> rw [ih] <;> exact setPix_shape g _ p.2 p.1

theorem emit_binary (cluster : List (Nat × Nat)) :
    ∀ (g : List (List Nat)) (a : Nat), BinaryGrid g →
      BinaryGrid (emit cluster g a).1 := by
  induction cluster with
  | nil => intro g a hg; exact hg
  | cons p rest ih =>
      intro g a hg
      unfold emit
      split_ifs
      · exact ih _ _ (setPix_binary g p.2 p.1 255 hg (Or.inr rfl))
      · exact ih _ _ (setPix_binary g p.2 p.1 0 hg (Or.inl rfl))

theorem emit_unvisited (cluster : List (Nat × Nat)) :
    ∀ (g : List (List Nat)) (a : Nat) (y0 x0 : Nat), (x0, y0) ∉ cluster →
      getPix (emit cluster g a).1 y0 x0 = getPix g y0 x0 := by
  induction cluster with
  | nil => intro g a y0 x0 _; rfl
  | cons p rest ih =>
      intro g a y0 x0 hnm
      simp only [List.mem_cons, not_or] at hnm
      obtain ⟨h1, h2⟩ := hnm
      have h3 : y0 ≠ p.2 ∨ x0 ≠ p.1 := by
        rcases p with ⟨px, py⟩
        simp only [Prod.mk.injEq] at h1
        omega
      unfold emit
      split_ifs <;> rw [ih _ _ _ _ h2] <;> exact getPix_setPix_ne g p.2 p.1 _ y0 x0 h3

theorem processCluster_shape (image : List (List Nat)) (st : List (List Nat) × Nat)
    (cluster : List (Nat × Nat)) :
    (processCluster image st cluster).1.map List.length = st.1.map List.length :=
  emit_shape cluster st.1 _

theorem runClusters_shape (shuffle : List (Nat × Nat) → List (Nat × Nat))
    (image : List (List Nat)) (dist : Distribution) :
    ∀ (clusters : List (List (Nat × Nat))) (st : List (List Nat) × Nat),
      (runClusters shuffle image dist st clusters).1.map List.length =
        st.1.map List.length := by
  intro clusters
  induction clusters with
  | nil => intro st; rfl
  | cons c rest ih =>
      intro st
      unfold runClusters at ih ⊢
      rw [List.foldl_cons, ih]
      exact processCluster_shape image st _

theorem runClusters_binary (shuffle : List (Nat × Nat) → List (Nat × Nat))
    (image : List (List Nat)) (dist : Distribution) :
    ∀ (clusters : List (List (Nat × Nat))) (st : List (List Nat) × Nat),
      BinaryGrid st.1 → BinaryGrid (runClusters shuffle image dist st clusters).1 := by
  intro clusters
  induction clusters with
  | nil => intro st hst; exact hst
  | cons c rest ih =>
      intro st hst
      unfold runClusters at ih ⊢
      rw [List.foldl_cons]
      exact ih _ (emit_binary _ st.1 _ hst)

theorem runClusters_unvisited (shuffle : List (Nat × Nat) → List (Nat × Nat))
    (image : List (List Nat)) (dist : Distribution) :
    ∀ (clusters : List (List (Nat × Nat))) (st : List (List Nat) × Nat) (y0 x0 : Nat),
      (∀ c ∈ clusters, (x0, y0) ∉ applyDist shuffle image dist c) →
      getPix (runClusters shuffle image dist st clusters).1 y0 x0 =
        getPix st.1 y0 x0 := by
  intro clusters
  induction clusters with
  | nil => intro st y0 x0 _; rfl
  | cons c rest ih =>
      intro st y0 x0 hnm
      unfold runClusters at ih ⊢
      rw [List.foldl_cons]
      rw [ih _ y0 x0 (fun d hd => hnm d (List.mem_cons_of_mem c hd))]
      exact emit_unvisited _ st.1 _ y0 x0 (hnm c (List.mem_cons_self c rest))

/-- Reordering a cluster never moves points across cluster boundaries:
every point of the reordered cluster is a point of the cluster. -/
theorem applyDist_subset (shuffle : List (Nat × Nat) → List (Nat × Nat))
    (image : List (List Nat)) (dist : Distribution) (c : List (Nat × Nat))
    (hsh : ∀ l, (shuffle l).Perm l) :
    ∀ q ∈ applyDist shuffle image dist c, q ∈ c := by
  intro q hq
  cases dist with
  | standard => exact hq
  | ordered => exact (List.mergeSort_perm c _).subset hq
  | random => exact (hsh c).subset hq

/-- Claim C6: whenever halftoning completes, the output grid has the
shape of the input, every cell is 0 or 255, and every pixel the clipped
curve never visits still holds its initialized paper value 0. -/
theorem halftoning_postconditions
    (shuffle : List (Nat × Nat) → List (Nat × Nat)) (image_in : List (List Nat))
    (ct : CurveType) (cs : Int) (dist : Distribution) (out : List (List Nat))
    (hsh : ∀ l, (shuffle l).Perm l)
    (hok : halftoning shuffle image_in ct cs dist = Except.ok out) :
    out.map List.length = image_in.map List.length
    ∧ BinaryGrid out
    ∧ ∀ y x, (x, y) ∉ visitedCurve image_in ct → getPix out y x = 0 := by
  unfold halftoning at hok
  cases hpc : partitionCurve (visitedCurve image_in ct) cs with
  | error e =>
      rw [hpc] at hok
      exact absurd hok (by simp)
  | ok clusters =>
      rw [hpc] at hok
      rw [Except.ok.injEq] at hok
      subst hok
      refine ⟨?_, ?_, ?_⟩
      · rw [runClusters_shape, zeros_like_shape]
      · refine runClusters_binary shuffle image_in dist clusters _ ?_
        intro row hrow w hw
        unfold zeros_like at hrow
        obtain ⟨r, _, hr⟩ := List.mem_map.mp hrow
        subst hr
        obtain ⟨u, _, hu⟩ := List.mem_map.mp hw
        left
        omega
      · intro y x hnv
        rw [runClusters_unvisited shuffle image_in dist clusters _ y x ?_,
          getPix_zeros]
        intro c hc hmem
        exact hnv (partitionCurve_mem _ _ _ hpc c hc _
          (applyDist_subset shuffle image_in dist c hsh _ hmem))

theorem halftoning_postconditions_witness :
    [[(255 : Nat)]].map List.length = [[(255 : Nat)]].map List.length
    ∧ BinaryGrid [[(255 : Nat)]]
    ∧ ∀ y x, (x, y) ∉ visitedCurve [[(255 : Nat)]] CurveType.hilbert →
        getPix [[(255 : Nat)]] y x = 0 :=
  halftoning_postconditions (fun l => l) [[255]] CurveType.hilbert 1
    Distribution.standard [[255]] (fun l => List.Perm.refl l) rfl

/-! ## The Peano/Sierpinski stubs break the curve and conservation claims
(claims C1, C3) -/

/-- Claim C3 evaluated at the failing input: `space_filling_curve('peano', 1)`
returns nine copies of the origin — the stub body of `peano` — so the cell
`(1, 0)` of the `3 × 3` grid is never visited and the sequence is not a
bijection onto the grid (its own docstring and the TODO marker show the
intended behavior). -/
theorem peano_curve_not_bijective :
    (space_filling_curve CurveType.peano 1).length = 9
    ∧ (space_filling_curve CurveType.peano 1).count ((0 : Nat), (0 : Nat)) = 9
    ∧ (space_filling_curve CurveType.peano 1).count ((1 : Nat), (0 : Nat)) = 0 := by
  refine ⟨rfl, by decide, by decide⟩

/-- Claim C1 evaluated at the failing input: halftoning the 2×2 image
`[[200, 0], [0, 0]]` with the Peano curve (whose stub visits pixel (0, 0)
nine times), cluster size 1, standard distribution.  The run emits ink
four times but always onto the same pixel, so the output sum is 255 and
`sum(output) / 255 = 1`, while the accumulated source intensity over the
clipped curve is `9 · 200 = 1800` and `⌊1800 / 255⌋ = 7 ≠ 1`. -/
theorem accumulator_conservation_fails_on_peano :
    halftoning (fun l => l) [[200, 0], [0, 0]] CurveType.peano 1
        Distribution.standard = Except.ok [[255, 0], [0, 0]]
    ∧ gridSum [[255, 0], [0, 0]] / 255 = 1
    ∧ visitedIntensitySum [[200, 0], [0, 0]] CurveType.peano / 255 = 7
    ∧ (1 : Nat) ≠ 7 := by
  refine ⟨rfl, by decide, by decide, by decide⟩
